import Mathlib

/-!
# Verification of `chromedriver_checker.py`

A shallow embedding of the core logic of `src/chromedriver_checker.py`
(the `WorkerThread` methods `check_version`, `download_chromedriver`,
`copy_chromedriver` and `get_chrome_for_testing_info`) together with
theorems settling the specification claims about it.

The embedding models:

* the HTML document tree and the BeautifulSoup operations the code uses
  (`find`, `find_all`, `.text`, tag truthiness, `class_` matching);
* `packaging.version.parse` and `Version` comparison over the PEP 440
  grammar (optional `v` prefix, epoch, release, pre-, post- and
  dev-release segments, local label, surrounding whitespace), with the
  comparison performed on `_cmpkey`'s normalized tuples;
* the filesystem effects of the copy and download operations as explicit
  state passing over a map from paths to file contents.
-/

namespace ChromedriverChecker

/-! ## HTML document model (the structures BeautifulSoup exposes) -/

/-- A parsed HTML node: either a text node (`NavigableString`) or an
element (`Tag`) with a tag name, attributes and children. -/
inductive Node where
  | text (s : String)
  | elem (tag : String) (attrs : List (String × String)) (children : List Node)

/-- The children of a node (`Tag.contents`; text nodes have none). -/
def childrenOf : Node → List Node
  | .text _ => []
  | .elem _ _ cs => cs

/-- Attribute lookup on an element (`tag[key]` / `tag.get(key)`). -/
def attrOf (n : Node) (key : String) : Option String :=
  match n with
  | .text _ => none
  | .elem _ attrs _ => (attrs.find? (fun a => a.1 == key)).map (fun a => a.2)

/-- Does the node match a given tag name (the name filter of
`find`/`find_all`)? -/
def isNamed (t : String) (n : Node) : Bool :=
  match n with
  | .elem tg _ _ => tg == t
  | .text _ => false

/-- Does the node carry attribute `id` with the given value
(the `{'id': channel}` filter of `find`)? -/
def hasId (v : String) (n : Node) : Bool :=
  attrOf n "id" == some v

/-- Splitting an attribute value on whitespace runs (Python's
`str.split()`, used by the tree builder for multi-valued attributes such
as `class`); the accumulator holds the current word reversed. -/
def splitWsAux : List Char → List Char → List String
  | [], acc => if acc.isEmpty then [] else [String.mk acc.reverse]
  | c :: cs, acc =>
    if c.isWhitespace then
      if acc.isEmpty then splitWsAux cs []
      else String.mk acc.reverse :: splitWsAux cs []
    else splitWsAux cs (c :: acc)

/-- Does the node's (whitespace-separated, multi-valued) `class`
attribute contain the given class (the `class_` filter of `find_all`)? -/
def hasClass (c : String) (n : Node) : Bool :=
  match attrOf n "class" with
  | some v => (splitWsAux v.data []).contains c
  | none => false

mutual

/-- Models `tag.text`: the concatenation of all descendant strings in document
order. -/
def textOf : Node → String
  | .text s => s
  | .elem _ _ cs => textListOf cs

def textListOf : List Node → String
  | [] => ""
  | n :: rest => textOf n ++ textListOf rest

end

mutual

/-- Models `tag.find(...)`: the first descendant (strictly below `n`, pre-order
document order) satisfying the filter, or `None`. -/
def findNode (p : Node → Bool) : Node → Option Node
  | .text _ => none
  | .elem _ _ cs => findList p cs

def findList (p : Node → Bool) : List Node → Option Node
  | [] => none
  | n :: rest =>
    if p n then some n
    else
      match findNode p n with
      | some r => some r
      | none => findList p rest

end

mutual

/-- Models `tag.find_all(...)`: all descendants (strictly below `n`, pre-order
document order) satisfying the filter. -/
def findAllNode (p : Node → Bool) : Node → List Node
  | .text _ => []
  | .elem _ _ cs => findAllList p cs

def findAllList (p : Node → Bool) : List Node → List Node
  | [] => []
  | n :: rest =>
    (if p n then [n] else []) ++ findAllNode p n ++ findAllList p rest

end

/-! ## Association lists (Python `dict` with insertion order) -/

/-- Models `d[k] = v` on a Python dict: update in place if the key is present,
append otherwise. -/
def setKey {α : Type} (m : List (String × α)) (k : String) (v : α) :
    List (String × α) :=
  match m with
  | [] => [(k, v)]
  | (k', v') :: rest =>
    if k' == k then (k, v) :: rest else (k', v') :: setKey rest k v

/-- Models `d.get(k)` / `k in d` on a Python dict. -/
def getKey {α : Type} (m : List (String × α)) (k : String) : Option α :=
  match m with
  | [] => none
  | (k', v') :: rest => if k' == k then some v' else getKey rest k

/-! ## The catalog parser (`WorkerThread.get_chrome_for_testing_info`)

The network fetch is the I/O boundary: the model receives the parsed
document and embeds the traversal from `soup = BeautifulSoup(...)` on.
Exceptions inside the `try` block (here: calling `.find('code')` on the
`None` returned when a channel section has no `<p>` descendant) are
modelled with `Except`; the wrapper catches them and returns the empty
dict, exactly as the `except` clause does. -/

/-- The per-channel info the parser builds: `{'version': ...,
'download_urls': {binary: {platform: url}}}`. -/
structure ChannelInfo where
  version : String
  download_urls : List (String × List (String × String))
deriving DecidableEq, Repr

/-- One row of a channel's download table:
`cells = row.find_all(['th', 'td'])`. -/
def cellsOf (row : Node) : List Node :=
  findAllNode (fun n => isNamed "th" n || isNamed "td" n) row

/-- Models `cells[i].find('code').text if cells[i].find('code') else ''`:
the conditional expression only distinguishes a found tag from `None`,
since a found `bs4.Tag` is unconditionally truthy (`Tag.__bool__` is
`True` even for a childless tag). -/
def cellCode (c : Node) : String :=
  match findNode (isNamed "code") c with
  | some n => textOf n
  | none => ""

/-- The `(binary, platform, url)` triple a table row contributes, or
`none` when the row is skipped (fewer than 4 cells, or any of the three
designated texts empty). -/
def rowEntry (row : Node) : Option (String × String × String) :=
  match cellsOf row with
  | c0 :: c1 :: c2 :: _ :: _ =>
    let b := cellCode c0
    let pl := cellCode c1
    let u := cellCode c2
    if b ≠ "" ∧ pl ≠ "" ∧ u ≠ "" then some (b, pl, u) else none
  | _ => none

/-- Models `result[channel]['download_urls'][binary][platform] = url`,
(creating the inner dict when `binary` is new). -/
def addEntry (d : List (String × List (String × String)))
    (e : String × String × String) : List (String × List (String × String)) :=
  match getKey d e.1 with
  | none => setKey d e.1 [(e.2.1, e.2.2)]
  | some m => setKey d e.1 (setKey m e.2.1 e.2.2)

/-- The body of the `for row in rows` loop. -/
def processRow (d : List (String × List (String × String))) (row : Node) :
    List (String × List (String × String)) :=
  match rowEntry row with
  | none => d
  | some e => addEntry d e

/-- The filter of `table.find_all('tr', class_='status-ok')`. -/
def okRow (n : Node) : Bool :=
  isNamed "tr" n && hasClass "status-ok" n

/-- The downloads dict built for a channel section: first `<table>`
descendant, then the fold over its `status-ok` rows (empty when the
section has no table). -/
def downloadsOf (sec : Node) : List (String × List (String × String)) :=
  match findNode (isNamed "table") sec with
  | none => []
  | some table => (findAllNode okRow table).foldl processRow []

/-- One iteration of the `for channel in channels` loop: find the
channel's section, then `channel_section.find('p').find('code')`.
`.error ()` models the `AttributeError` raised when the section has no
`<p>` descendant (so `find('p')` is `None`); `.ok none` means the channel
is skipped; `.ok (some info)` means `result[channel]` is set.  The
`if version_code:` guard of the source only distinguishes a found tag
from `None`, because a found `bs4.Tag` is unconditionally truthy
(`Tag.__bool__` returns `True` even for a childless tag), so any found
`code` element — even an empty one — produces an entry. -/
def channelInfoOf (doc : Node) (channel : String) :
    Except Unit (Option ChannelInfo) :=
  match findNode (fun n => isNamed "section" n && hasId channel n) doc with
  | none => .ok none
  | some sec =>
    match findNode (isNamed "p") sec with
    | none => .error ()
    | some par =>
      match findNode (isNamed "code") par with
      | none => .ok none
      | some code => .ok (some ⟨textOf code, downloadsOf sec⟩)

/-- The fixed channel list of the source. -/
def channelNames : List String := ["stable", "beta", "dev", "canary"]

/-- The `for channel in channels` loop, threading the growing `result`
dict; an exception aborts the whole loop. -/
def catFold (doc : Node) :
    List String → List (String × ChannelInfo) →
    Except Unit (List (String × ChannelInfo))
  | [], acc => .ok acc
  | ch :: rest, acc =>
    match channelInfoOf doc ch with
    | .error e => .error e
    | .ok none => catFold doc rest acc
    | .ok (some info) => catFold doc rest (setKey acc ch info)

/-- The `try` body of `get_chrome_for_testing_info` from the parsed
document on. -/
def parseCatalog (doc : Node) : Except Unit (List (String × ChannelInfo)) :=
  catFold doc channelNames []

/-- Models `WorkerThread.get_chrome_for_testing_info`, as a function of the
fetched document: the `except` clause turns any exception into the empty
dict. -/
def get_chrome_for_testing_info (doc : Node) : List (String × ChannelInfo) :=
  match parseCatalog doc with
  | .ok c => c
  | .error _ => []

/-! ## The version comparator (`packaging.version` as used by
`WorkerThread.check_version`)

`version.parse` is `packaging.version.Version`: it matches the anchored
PEP 440 regular expression (`^\s* v? (epoch!)? release pre? post? dev?
local? \s*$`, compiled with VERBOSE and IGNORECASE) and raises
`InvalidVersion` otherwise.  The model covers the full grammar: optional
`v` prefix, epoch `[0-9]+!`, release `[0-9]+(\.[0-9]+)*`, pre-release
`[-_\.]?(alpha|a|beta|b|preview|pre|c|rc)[-_\.]?[0-9]*`, post-release
`(-[0-9]+ | [-_\.]?(post|rev|r)[-_\.]?[0-9]*)`, dev-release
`[-_\.]?dev[-_\.]?[0-9]*` and local label
`\+[a-z0-9]+([-_\.][a-z0-9]+)*`, with the letters normalized as in
`_parse_letter_version` (alpha→a, beta→b, c/pre/preview→rc,
rev/r→post; a missing number defaults to 0).  `\s` is modelled by
`Char.isWhitespace` and the letter classes as ASCII (Python's regex also
admits some exotic unicode whitespace and case foldings). -/

/-- One segment of a local version label as `_parse_local_version`
normalizes it: an all-digit part becomes its integer, any other part its
lowercased string. -/
inductive LocalPart where
  | num (n : Nat)
  | str (s : String)
deriving DecidableEq, Repr

/-- A parsed version: the fields of packaging's `_Version` record after
normalization.  The pre-release phase rank 0/1/2 stands for the
normalized letters `"a" < "b" < "rc"` in the string order the comparison
key uses; post and dev segments carry only their number (their letters
normalize to the constants `"post"` and `"dev"`). -/
structure PyVersion where
  epoch : Nat
  release : List Nat
  pre : Option (Nat × Nat)
  post : Option Nat
  dev : Option Nat
  localSeg : Option (List LocalPart)
deriving DecidableEq, Repr

/-- One step of `int` on a decimal digit string. -/
def digitStep (a : Nat) (c : Char) : Nat := a * 10 + (c.toNat - 48)

/-- Models `int` on a list of decimal digits, with an accumulator. -/
def natFrom (a : Nat) (g : List Char) : Nat := g.foldl digitStep a

/-- Models `int` on a list of decimal digits. -/
def natOfDigits (g : List Char) : Nat := natFrom 0 g

/-- The greedy scan of `(\.[0-9]+)*` continuing a release segment whose
first component has already been accumulated in `acc`: a dot is consumed
only when digits follow it. -/
def relLoop (acc : Nat) : List Char → List Nat × List Char
  | [] => ([acc], [])
  | c :: cs =>
    if c.isDigit then relLoop (digitStep acc c) cs
    else if c = '.' then
      match cs with
      | [] => ([acc], ['.'])
      | d :: cs' =>
        if d.isDigit then
          let r := relLoop (digitStep 0 d) cs'
          (acc :: r.1, r.2)
        else ([acc], c :: d :: cs')
    else ([acc], c :: cs)

/-- The release segment `[0-9]+(\.[0-9]+)*`: at least one leading digit,
then `relLoop`; returns the components and the unconsumed rest. -/
def takeRelease : List Char → Option (List Nat × List Char)
  | [] => none
  | c :: cs => if c.isDigit then some (relLoop (digitStep 0 c) cs) else none

/-- The single optional separator `[-_\.]?`. -/
def dropSep : List Char → List Char
  | [] => []
  | c :: cs => if c = '-' || c = '_' || c = '.' then cs else c :: cs

/-- Case-insensitive literal prefix match; returns the rest on success. -/
def stripCI : List Char → List Char → Option (List Char)
  | [], rest => some rest
  | _ :: _, [] => none
  | a :: ps, c :: rest => if c.toLower = a then stripCI ps rest else none

/-- The pre-release letter alternation
`alpha|a|beta|b|preview|pre|c|rc` (ordered as in the pattern), already
normalized to the rank of `a`/`b`/`rc`. -/
def preLetter (cs : List Char) : Option (Nat × List Char) :=
  match stripCI ['a', 'l', 'p', 'h', 'a'] cs with
  | some r => some (0, r)
  | none =>
  match stripCI ['a'] cs with
  | some r => some (0, r)
  | none =>
  match stripCI ['b', 'e', 't', 'a'] cs with
  | some r => some (1, r)
  | none =>
  match stripCI ['b'] cs with
  | some r => some (1, r)
  | none =>
  match stripCI ['p', 'r', 'e', 'v', 'i', 'e', 'w'] cs with
  | some r => some (2, r)
  | none =>
  match stripCI ['p', 'r', 'e'] cs with
  | some r => some (2, r)
  | none =>
  match stripCI ['c'] cs with
  | some r => some (2, r)
  | none =>
  match stripCI ['r', 'c'] cs with
  | some r => some (2, r)
  | none => none

/-- The optional pre-release segment `[-_\.]? letter [-_\.]? [0-9]*`:
consumed greedily when the letter matches, left untouched (including any
leading separator) otherwise.  A missing number defaults to `0` as in
`_parse_letter_version`. -/
def parsePre (cs : List Char) : Option (Nat × Nat) × List Char :=
  match preLetter (dropSep cs) with
  | none => (none, cs)
  | some (ph, rest) =>
    let rest1 := dropSep rest
    (some (ph, natOfDigits (rest1.takeWhile Char.isDigit)),
      rest1.dropWhile Char.isDigit)

/-- The post-release letter alternation `post|rev|r` (ordered as in the
pattern); all spellings normalize to `"post"`. -/
def postLetter (cs : List Char) : Option (List Char) :=
  match stripCI ['p', 'o', 's', 't'] cs with
  | some r => some r
  | none =>
  match stripCI ['r', 'e', 'v'] cs with
  | some r => some r
  | none => stripCI ['r'] cs

/-- The letter form of the post-release segment,
`[-_\.]?(post|rev|r)[-_\.]?[0-9]*`. -/
def parsePostLetter (cs : List Char) : Option Nat × List Char :=
  match postLetter (dropSep cs) with
  | none => (none, cs)
  | some rest =>
    let rest1 := dropSep rest
    (some (natOfDigits (rest1.takeWhile Char.isDigit)),
      rest1.dropWhile Char.isDigit)

/-- The optional post-release segment: the bare-dash form `-[0-9]+`
(tried first, as in the pattern's alternation) or the letter form. -/
def parsePost (cs : List Char) : Option Nat × List Char :=
  match cs with
  | '-' :: rest =>
    let ds := rest.takeWhile Char.isDigit
    if ds.isEmpty then parsePostLetter cs
    else (some (natOfDigits ds), rest.dropWhile Char.isDigit)
  | _ => parsePostLetter cs

/-- The optional dev-release segment `[-_\.]?dev[-_\.]?[0-9]*`. -/
def parseDev (cs : List Char) : Option Nat × List Char :=
  match stripCI ['d', 'e', 'v'] (dropSep cs) with
  | none => (none, cs)
  | some rest =>
    let rest1 := dropSep rest
    (some (natOfDigits (rest1.takeWhile Char.isDigit)),
      rest1.dropWhile Char.isDigit)

/-- A character of a local-label word: `[a-z0-9]` under IGNORECASE. -/
def isLocalChar (c : Char) : Bool := c.isDigit || c.isAlpha

/-- Normalization of one local-label word (`_parse_local_version`):
all-digit words become integers, others lowercased strings. -/
def localWord (g : List Char) : LocalPart :=
  if g.all Char.isDigit then .num (natOfDigits g)
  else .str (String.mk (g.map Char.toLower))

/-- The greedy scan of `([-_\.][a-z0-9]+)*` continuing a local label
whose current word is accumulated (reversed) in `acc`: a separator is
consumed only when a word character follows it. -/
def localLoop (acc : List Char) : List Char → List LocalPart × List Char
  | [] => ([localWord acc.reverse], [])
  | c :: cs =>
    if isLocalChar c then localLoop (c :: acc) cs
    else if c = '-' || c = '_' || c = '.' then
      match cs with
      | [] => ([localWord acc.reverse], [c])
      | d :: cs' =>
        if isLocalChar d then
          let r := localLoop [d] cs'
          (localWord acc.reverse :: r.1, r.2)
        else ([localWord acc.reverse], c :: d :: cs')
    else ([localWord acc.reverse], c :: cs)

/-- The optional local segment `\+[a-z0-9]+([-_\.][a-z0-9]+)*`:
consumed when a `+` with at least one word character follows, left
untouched otherwise. -/
def parseLocal (cs : List Char) : Option (List LocalPart) × List Char :=
  match cs with
  | '+' :: d :: rest =>
    if isLocalChar d then
      let r := localLoop [d] rest
      (some r.1, r.2)
    else (none, cs)
  | _ => (none, cs)

/-- Stripping the `\s*` at both ends of the anchored pattern. -/
def stripWsEnds (cs : List Char) : List Char :=
  ((cs.dropWhile Char.isWhitespace).reverse.dropWhile
    Char.isWhitespace).reverse

/-- The optional `v` prefix (IGNORECASE admits `V`). -/
def dropV : List Char → List Char
  | [] => []
  | c :: cs => if c = 'v' ∨ c = 'V' then cs else c :: cs

/-- The optional epoch `[0-9]+!`: committed only when the digits are
followed by `!`, otherwise the input is left for the release segment. -/
def parseEpoch (cs : List Char) : Nat × List Char :=
  let ds := cs.takeWhile Char.isDigit
  match cs.dropWhile Char.isDigit with
  | '!' :: rest => if ds.isEmpty then (0, cs) else (natOfDigits ds, rest)
  | _ => (0, cs)

/-- Models `packaging.version.parse` (i.e. `Version.__init__`): match the
anchored grammar and normalize; `none` models the `InvalidVersion`
exception. -/
def parseVersion (s : String) : Option PyVersion :=
  let cs1 := dropV (stripWsEnds s.data)
  let ep := (parseEpoch cs1).1
  let cs2 := (parseEpoch cs1).2
  match takeRelease cs2 with
  | none => none
  | some (rel, r1) =>
    let pr := parsePre r1
    let po := parsePost pr.2
    let dv := parseDev po.2
    let lo := parseLocal dv.2
    if lo.2.isEmpty then some ⟨ep, rel, pr.1, po.1, dv.1, lo.1⟩ else none

/-- Python tuple comparison on integer tuples. -/
def lexNat : List Nat → List Nat → Ordering
  | [], [] => .eq
  | [], _ :: _ => .lt
  | _ :: _, [] => .gt
  | a :: as, b :: bs =>
    match compare a b with
    | .eq => lexNat as bs
    | o => o

/-- Models `_cmpkey`'s release normalization: drop trailing zero components. -/
def stripZeros (l : List Nat) : List Nat :=
  (l.reverse.dropWhile (fun x => x == 0)).reverse

/-- Release comparison as `Version.__lt__`/`__eq__`/`__gt__` perform it:
trailing zeros stripped, then tuple comparison. -/
def cmpRelease (a b : List Nat) : Ordering :=
  lexNat (stripZeros a) (stripZeros b)

/-- The pre-release slot of `_cmpkey`: `NegativeInfinity` for a version
whose only qualifier is a dev segment, `Infinity` for a version without
a pre-release, the `(letter, number)` pair otherwise. -/
inductive PreKey where
  | negInf
  | val (ph n : Nat)
  | inf
deriving DecidableEq, Repr

/-- Computing the `_pre` slot of `_cmpkey` from the parsed fields. -/
def preKeyOf (v : PyVersion) : PreKey :=
  match v.pre with
  | some pr => .val pr.1 pr.2
  | none =>
    match v.post, v.dev with
    | none, some _ => .negInf
    | _, _ => .inf

/-- Comparison on the pre-release slot (`NegInf < (letter, n) < Inf`;
tuples by normalized letter rank, then number). -/
def cmpPreKey : PreKey → PreKey → Ordering
  | .negInf, .negInf => .eq
  | .negInf, _ => .lt
  | _, .negInf => .gt
  | .inf, .inf => .eq
  | .inf, _ => .gt
  | _, .inf => .lt
  | .val p1 n1, .val p2 n2 =>
    match compare p1 p2 with
    | .eq => compare n1 n2
    | o => o

/-- The `_post` slot: a version without a post-release sorts before one
with it (`NegativeInfinity`). -/
def cmpPost : Option Nat → Option Nat → Ordering
  | none, none => .eq
  | none, some _ => .lt
  | some _, none => .gt
  | some a, some b => compare a b

/-- The `_dev` slot: a version without a dev-release sorts after one
with it (`Infinity`). -/
def cmpDev : Option Nat → Option Nat → Ordering
  | none, none => .eq
  | none, some _ => .gt
  | some _, none => .lt
  | some a, some b => compare a b

/-- Python string comparison by code point, shorter prefix first. -/
def cmpChars : List Char → List Char → Ordering
  | [], [] => .eq
  | [], _ :: _ => .lt
  | _ :: _, [] => .gt
  | a :: as, b :: bs =>
    match compare a.toNat b.toNat with
    | .eq => cmpChars as bs
    | o => o

/-- Comparison of one local-label part under `_cmpkey`'s encoding:
numeric parts (encoded `(i, "")`) sort after string parts (encoded
`(NegativeInfinity, s)`). -/
def cmpLocalPart : LocalPart → LocalPart → Ordering
  | .num a, .num b => compare a b
  | .num _, .str _ => .gt
  | .str _, .num _ => .lt
  | .str a, .str b => cmpChars a.data b.data

/-- Tuple comparison of local-label parts. -/
def cmpLocalList : List LocalPart → List LocalPart → Ordering
  | [], [] => .eq
  | [], _ :: _ => .lt
  | _ :: _, [] => .gt
  | a :: as, b :: bs =>
    match cmpLocalPart a b with
    | .eq => cmpLocalList as bs
    | o => o

/-- The `_local` slot: a version without a local label sorts before one
with it (`NegativeInfinity`). -/
def cmpLocal : Option (List LocalPart) → Option (List LocalPart) → Ordering
  | none, none => .eq
  | none, some _ => .lt
  | some _, none => .gt
  | some a, some b => cmpLocalList a b

/-- Comparison of two parsed versions via their `_cmpkey`s: epoch,
normalized release, pre slot, post slot, dev slot, local slot, compared
lexicographically as Python compares the key tuples. -/
def compareVersion (v w : PyVersion) : Ordering :=
  match compare v.epoch w.epoch with
  | .eq =>
    match cmpRelease v.release w.release with
    | .eq =>
      match cmpPreKey (preKeyOf v) (preKeyOf w) with
      | .eq =>
        match cmpPost v.post w.post with
        | .eq =>
          match cmpDev v.dev w.dev with
          | .eq => cmpLocal v.localSeg w.localSeg
          | o => o
        | o => o
      | o => o
    | o => o
  | o => o

/-! ## The comparison part of `WorkerThread.check_version`

Lines 84–105: given the local version probe's result and the catalog's
stable version, build `result['status']` and `result['needs_update']`
(initialized `False`).  The `try`/`except` around the parse and compare
is total: a parse failure yields `parse_error` with `needs_update`
unchanged. -/

/-- The `result['status']` values the code assigns. -/
inductive Status where
  | latest | newer | outdated | parse_error | not_found
deriving DecidableEq, Repr

/-- The observable comparison outcome of `check_version`. -/
structure CheckResult where
  needs_update : Bool
  status : Status
deriving DecidableEq, Repr

/-- Lines 84–105 of `check_version` (with `chrome_info['stable']`
present): `None` local version short-circuits to `not_found` with
`needs_update = True`; otherwise parse both and classify. -/
def check_version (local_version : Option String) (stable_version : String) :
    CheckResult :=
  match local_version with
  | none => ⟨true, .not_found⟩
  | some lv =>
    match parseVersion lv, parseVersion stable_version with
    | some l, some t =>
      match compareVersion l t with
      | .eq => ⟨false, .latest⟩
      | .gt => ⟨false, .newer⟩
      | .lt => ⟨true, .outdated⟩
    | some _, none => ⟨false, .parse_error⟩
    | none, _ => ⟨false, .parse_error⟩

/-! ## Filesystem model

File effects are modelled as explicit state passing over a map from path
strings to file contents, plus the set of directories that exist.  Path
joining is abstracted to `a ++ "/" ++ b` (the platform separator plays no
role in the claims). -/

/-- The filesystem state: file contents by path, and existing
directories. -/
structure FS where
  files : String → Option String
  dirs : String → Bool

/-- Models `os.path.join`. -/
def pathJoin (a b : String) : String := a ++ "/" ++ b

/-- Models `shutil.copy2 src dst` / writing a file: replace the contents stored
at one path. -/
def setFile (fs : FS) (p : String) (c : String) : FS :=
  { fs with files := fun q => if q == p then some c else fs.files q }

/-- Models `os.makedirs` (tracking only the directory itself). -/
def addDir (fs : FS) (d : String) : FS :=
  { fs with dirs := fun q => q == d || fs.dirs q }

/-! ## `WorkerThread.copy_chromedriver` -/

/-- The observable outcome of `copy_chromedriver`: the
`result_signal`'s target on success, or the `error_signal` for a missing
source file. -/
inductive CopyOutcome where
  | success (target : String)
  | sourceMissing (path : String)
deriving DecidableEq, Repr

/-- The fixed relative path of the binary inside the extracted tree:
`os.path.join(source_path, "chromedriver-win64", "chromedriver.exe")`. -/
def sourceBinary (source_path : String) : String :=
  pathJoin source_path (pathJoin "chromedriver-win64" "chromedriver.exe")

/-- The destination path
`os.path.join(target_dir, "chromedriver.exe")`. -/
def targetBinary (target_dir : String) : String :=
  pathJoin target_dir "chromedriver.exe"

/-- The backup path `chromedriver_target + ".bak"`. -/
def backupBinary (target_dir : String) : String :=
  targetBinary target_dir ++ ".bak"

/-- Models `WorkerThread.copy_chromedriver` (lines 153–187): create the target
directory if absent; abort with an error if the computed source binary
does not exist; otherwise back up any existing destination file to the
`.bak` path (`shutil.copy2`) and then copy the source over the
destination. -/
def copy_chromedriver (source_path target_dir : String) (fs : FS) :
    FS × CopyOutcome :=
  let fs1 := if fs.dirs target_dir then fs else addDir fs target_dir
  let src := sourceBinary source_path
  let tgt := targetBinary target_dir
  match fs1.files src with
  | none => (fs1, .sourceMissing src)
  | some content =>
    let fs2 :=
      match fs1.files tgt with
      | some old => setFile fs1 (backupBinary target_dir) old
      | none => fs1
    (setFile fs2 tgt content, .success tgt)

/-! ## `WorkerThread.download_chromedriver`

The network layer is the I/O boundary: the model receives the HTTP
response.  The body is abstracted to either a well-formed zip archive
(a list of `(member name, contents)` entries) or a malformed payload on
which `zipfile.ZipFile` raises `BadZipFile`; the byte-level zip format
plays no role in the claims. -/

/-- The downloaded payload as `zipfile.ZipFile` sees it. -/
inductive ZipData where
  | archive (entries : List (String × String))
  | malformed
deriving DecidableEq, Repr

/-- The HTTP response `requests.get` returns. -/
structure HttpResponse where
  status : Nat
  body : ZipData
deriving DecidableEq, Repr

/-- The observable outcome of `download_chromedriver`: success, or the
`error_signal` carrying the exception (`requests.HTTPError` raised by
`raise_for_status`, or `zipfile.BadZipFile`). -/
inductive DownloadOutcome where
  | success (path : String)
  | httpError (status : Nat)
  | badZip
deriving DecidableEq, Repr

/-- Models `zip_ref.extractall(save_path)`: write every archive member under
the destination directory. -/
def extractAll (fs : FS) (dir : String) (entries : List (String × String)) :
    FS :=
  entries.foldl (fun a e => setFile a (pathJoin dir e.1) e.2) fs

/-- Models `response.raise_for_status()`, which raises exactly for 4xx and 5xx
status codes. -/
def raisesForStatus (status : Nat) : Bool :=
  400 ≤ status && status < 600

/-- Models `WorkerThread.download_chromedriver` (lines 113–151):
`raise_for_status` first (before anything touches the filesystem; the
streamed body is buffered in memory), then unzip and extract.  Any
exception is caught and reported through the `error_signal`. -/
def download_chromedriver (resp : HttpResponse) (save_path : String)
    (fs : FS) : FS × DownloadOutcome :=
  if raisesForStatus resp.status then (fs, .httpError resp.status)
  else
    match resp.body with
    | .malformed => (fs, .badZip)
    | .archive entries => (extractAll fs save_path entries, .success save_path)

/-! ## The claims' domain: dotted-numeric version strings

The spec quantifies several claims over "dotted-numeric version strings"
(non-empty decimal components joined by `.`), and phrases the expected
comparison as componentwise integer comparison with missing trailing
components reading as zero.  These definitions state that domain and that
comparison in the spec's own terms, to be compared with the model of the
implementation's comparison. -/

/-- Models `s.split('.')` on a character list: the first group and the remaining
groups. -/
def splitDots : List Char → List Char × List (List Char)
  | [] => ([], [])
  | c :: cs =>
    if c = '.' then
      let p := splitDots cs
      ([], p.1 :: p.2)
    else
      let p := splitDots cs
      (c :: p.1, p.2)

/-- All dot-separated groups of a string (always non-empty, like
Python's `str.split`). -/
def dotGroups (s : String) : List (List Char) :=
  (splitDots s.data).1 :: (splitDots s.data).2

/-- The claims' domain: every dot-separated component is a non-empty
string of decimal digits. -/
def dottedNumeric (s : String) : Bool :=
  (dotGroups s).all (fun g => !g.isEmpty && g.all Char.isDigit)

/-- The dot-separated components of a dotted-numeric string, as
integers. -/
def releaseOf (s : String) : List Nat :=
  (dotGroups s).map natOfDigits

/-- Modelled from the spec's words: componentwise integer comparison of
the dot-separated components, with missing trailing components comparing
as zero. -/
def specPadCompare : List Nat → List Nat → Ordering
  | [], [] => .eq
  | [], b :: bs =>
    match compare 0 b with
    | .eq => specPadCompare [] bs
    | o => o
  | a :: as, [] =>
    match compare a 0 with
    | .eq => specPadCompare as []
    | o => o
  | a :: as, b :: bs =>
    match compare a b with
    | .eq => specPadCompare as bs
    | o => o
termination_by a b => a.length + b.length

/-- Modelled from the spec's words: the inverse classification map
(Equal↔Equal, LocalNewer↔LocalOlder). -/
def statusInv : Status → Status
  | .latest => .latest
  | .newer => .outdated
  | .outdated => .newer
  | .parse_error => .parse_error
  | .not_found => .not_found

/-- A list of naturals with no trailing zero component (the shape
`_cmpkey`'s release normalization produces). -/
def noTrailingZero (l : List Nat) : Prop :=
  l.getLast? ≠ some 0

/-- The provenance of a catalog entry: its version string is the text of
the first `code` element of the first `p` descendant of the channel's
section. -/
def versionFromCode (doc : Node) (ch : String) (info : ChannelInfo) : Prop :=
  ∃ sec par code,
    findNode (fun n => isNamed "section" n && hasId ch n) doc = some sec ∧
    findNode (isNamed "p") sec = some par ∧
    findNode (isNamed "code") par = some code ∧
    info.version = textOf code

/-! ## Concrete fixture inputs used by witnesses and counterexamples -/

/-- A document whose `stable` section's lead-paragraph `code` element is
present but childless: a found `bs4.Tag` is unconditionally truthy, so
the program accepts it and records an empty version string. -/
def c2doc : Node :=
  .elem "html" [] [
    .elem "section" [("id", "stable")] [
      .elem "p" [] [.elem "code" [] []]]]

/-- The lead paragraph of the `stable` section of `c3doc`: it exists but
contains no `code` element. -/
def c3par : Node := .elem "p" [] [.text "no version here"]

/-- The `stable` section of `c3doc`. -/
def c3sec : Node := .elem "section" [("id", "stable")] [c3par]

/-- A document whose `stable` section exists but has no `code` element in
its lead paragraph, while the `beta` section parses normally. -/
def c3doc : Node :=
  .elem "html" [] [
    c3sec,
    .elem "section" [("id", "beta")] [
      .elem "p" [] [.elem "code" [] [.text "1.2.3"]]]]

/-- A document whose `stable` section exists but has no `<p>` descendant
at all (so `channel_section.find('p')` is `None` and `.find('code')`
raises `AttributeError`), while the `beta` section is well-formed. -/
def c3noPdoc : Node :=
  .elem "html" [] [
    .elem "section" [("id", "stable")] [.elem "div" [] [.text "empty"]],
    .elem "section" [("id", "beta")] [
      .elem "p" [] [.elem "code" [] [.text "1.2.3"]]]]

/-- A table cell holding an inline `code` element with the given text. -/
def cellNode (t : String) : Node :=
  .elem "td" [] [.elem "code" [] [.text t]]

/-- A `status-ok` row with all four cells and all three `code`
sub-elements present. -/
def c8goodRow : Node :=
  .elem "tr" [("class", "status-ok")]
    [cellNode "chromedriver", cellNode "win64",
     cellNode "https://example/chromedriver-win64.zip", .elem "td" [] []]

/-- A `status-ok` row whose third (URL) cell has no `code`
sub-element. -/
def c8badRow : Node :=
  .elem "tr" [("class", "status-ok")]
    [cellNode "chromedriver", cellNode "win64", .elem "td" [] [],
     .elem "td" [] []]

/-- A row without the `status-ok` class. -/
def c8skippedRow : Node :=
  .elem "tr" [] [cellNode "chrome", cellNode "win64", cellNode "u",
    .elem "td" [] []]

/-- A download table with a good row, a row lacking its URL sub-element,
and a row not flagged `status-ok`. -/
def c8table : Node :=
  .elem "table" [] [c8goodRow, c8badRow, c8skippedRow]

/-- A channel section holding `c8table`. -/
def c8sec : Node := .elem "section" [("id", "stable")] [c8table]

/-- The empty filesystem. -/
def emptyFS : FS := ⟨fun _ => none, fun _ => false⟩

/-- A filesystem holding two extracted trees with distinct binary
contents. -/
def c1fs : FS :=
  ⟨fun p =>
    if p == "left/chromedriver-win64/chromedriver.exe" then some "one"
    else if p == "right/chromedriver-win64/chromedriver.exe" then some "two"
    else none,
   fun _ => false⟩

/-! ## Association list and filesystem lemmas -/

theorem getKey_setKey_self {α : Type} (m : List (String × α)) (k : String)
    (v : α) : getKey (setKey m k v) k = some v := by
  induction m with
  | nil => simp [setKey, getKey]
  | cons p rest ih =>
    obtain ⟨k', v'⟩ := p
    by_cases h : k' = k
    · simp [setKey, getKey, h]
    · simp [setKey, getKey, h, ih]

theorem getKey_setKey_ne {α : Type} (m : List (String × α)) (k k' : String)
    (v : α) (h : k' ≠ k) : getKey (setKey m k v) k' = getKey m k' := by
  induction m with
  | nil => simp [setKey, getKey, Ne.symm h]
  | cons p rest ih =>
    obtain ⟨k0, v0⟩ := p
    by_cases h0 : k0 = k
    · subst h0
      simp [setKey, getKey, Ne.symm h]
    · simp [setKey, getKey, h0, ih]

theorem getKey_setKey_cases {α : Type} {m : List (String × α)}
    {k k' : String} {v w : α} (h : getKey (setKey m k v) k' = some w) :
    (k' = k ∧ w = v) ∨ getKey m k' = some w := by
  by_cases hk : k' = k
  · subst hk
    rw [getKey_setKey_self] at h
    exact Or.inl ⟨rfl, (Option.some_injective _ h).symm⟩
  · rw [getKey_setKey_ne _ _ _ _ hk] at h
    exact Or.inr h

theorem setFile_files_self (fs : FS) (p c : String) :
    (setFile fs p c).files p = some c := by
  simp [setFile]

theorem setFile_files_ne (fs : FS) (p c q : String) (h : q ≠ p) :
    (setFile fs p c).files q = fs.files q := by
  simp [setFile, h]

theorem targetBinary_ne_backupBinary (d : String) :
    targetBinary d ≠ backupBinary d := by
  intro h
  have h2 := congrArg String.length h
  have h3 : (".bak" : String).length = 4 := rfl
  rw [backupBinary, String.length_append] at h2
  omega

theorem makedirs_files (fs : FS) (d : String) :
    (if fs.dirs d then fs else addDir fs d).files = fs.files := by
  split <;> rfl

/-! ## Claim theorems -/

/-- C7: whenever the local version is absent, `check_version` reports
`needs_update = True` with status `not_found`, for every stable version
string alike — in particular without consulting the version comparator
(the outcome does not depend on `stable_version` at all, and is never
`parse_error`). -/
theorem c7_absent_local_needs_update (stable_version : String) :
    check_version none stable_version = ⟨true, .not_found⟩ := rfl

/-- C10: when the computed source binary path does not exist,
`copy_chromedriver` reports the source-missing error, leaves every file
(in particular the destination binary and any `.bak` backup) unchanged,
and performs no backup and no copy — although the destination directory
itself has been created. -/
theorem c10_source_missing_no_changes (sp dest : String) (fs : FS)
    (h : fs.files (sourceBinary sp) = none) :
    (copy_chromedriver sp dest fs).2 = .sourceMissing (sourceBinary sp) ∧
    ((copy_chromedriver sp dest fs).1).files = fs.files ∧
    ((copy_chromedriver sp dest fs).1).dirs dest = true := by
  have hf : (if fs.dirs dest then fs else addDir fs dest).files
      (sourceBinary sp) = none := by
    rw [makedirs_files]; exact h
  refine ⟨?_, ?_, ?_⟩
  · simp only [copy_chromedriver, hf]
  · simp only [copy_chromedriver, hf]
    exact makedirs_files fs dest
  · simp only [copy_chromedriver, hf]
    split
    · assumption
    · simp [addDir]

theorem c10_source_missing_no_changes_witness :
    emptyFS.files (sourceBinary "dl") = none ∧
    ((copy_chromedriver "dl" "target" emptyFS).2 =
      .sourceMissing (sourceBinary "dl") ∧
    ((copy_chromedriver "dl" "target" emptyFS).1).files = emptyFS.files ∧
    ((copy_chromedriver "dl" "target" emptyFS).1).dirs "target" = true) :=
  ⟨rfl, c10_source_missing_no_changes "dl" "target" emptyFS rfl⟩

theorem copy_fresh (sp dest content : String) (fs : FS)
    (hs : fs.files (sourceBinary sp) = some content)
    (ht : fs.files (targetBinary dest) = none) :
    ((copy_chromedriver sp dest fs).1).files (targetBinary dest) =
      some content ∧
    ∀ q, q ≠ targetBinary dest →
      ((copy_chromedriver sp dest fs).1).files q = fs.files q := by
  simp only [copy_chromedriver, makedirs_files, hs, ht]
  refine ⟨setFile_files_self _ _ _, fun q hq => ?_⟩
  rw [setFile_files_ne _ _ _ _ hq, makedirs_files]

theorem copy_over (sp dest content old : String) (fs : FS)
    (hs : fs.files (sourceBinary sp) = some content)
    (ht : fs.files (targetBinary dest) = some old) :
    ((copy_chromedriver sp dest fs).1).files (targetBinary dest) =
      some content ∧
    ((copy_chromedriver sp dest fs).1).files (backupBinary dest) =
      some old := by
  simp only [copy_chromedriver, makedirs_files, hs, ht]
  refine ⟨setFile_files_self _ _ _, ?_⟩
  rw [setFile_files_ne _ _ _ _ (Ne.symm (targetBinary_ne_backupBinary dest)),
    setFile_files_self]

/-- C1: running `copy_chromedriver` twice against the same (initially
fresh) destination with distinct binary contents leaves the destination
binary holding the second call's content and the `.bak` file holding the
first call's content; after the first call alone the destination binary
exists and no `.bak` file does; and in general any pre-existing
destination file's content is saved under the `.bak` name (overwriting
whatever `.bak` held before) while the new content lands at the
destination. -/
theorem c1_backup_rotation (sp1 sp2 dest c1 c2 : String) (fs0 : FS)
    (_hdistinct : c1 ≠ c2)
    (hsrc1 : fs0.files (sourceBinary sp1) = some c1)
    (htgt : fs0.files (targetBinary dest) = none)
    (hbak : fs0.files (backupBinary dest) = none)
    (hsrc2 : ((copy_chromedriver sp1 dest fs0).1).files (sourceBinary sp2) =
      some c2) :
    (((copy_chromedriver sp1 dest fs0).1).files (targetBinary dest) =
        some c1 ∧
      ((copy_chromedriver sp1 dest fs0).1).files (backupBinary dest) =
        none) ∧
    (((copy_chromedriver sp2 dest
        ((copy_chromedriver sp1 dest fs0).1)).1).files (targetBinary dest) =
        some c2 ∧
      ((copy_chromedriver sp2 dest
        ((copy_chromedriver sp1 dest fs0).1)).1).files (backupBinary dest) =
        some c1) ∧
    (∀ fs sp s old, fs.files (sourceBinary sp) = some s →
      fs.files (targetBinary dest) = some old →
      ((copy_chromedriver sp dest fs).1).files (backupBinary dest) =
        some old ∧
      ((copy_chromedriver sp dest fs).1).files (targetBinary dest) =
        some s) := by
  obtain ⟨h1tgt, h1other⟩ := copy_fresh sp1 dest c1 fs0 hsrc1 htgt
  have h1bak : ((copy_chromedriver sp1 dest fs0).1).files
      (backupBinary dest) = none := by
    rw [h1other _ (Ne.symm (targetBinary_ne_backupBinary dest))]
    exact hbak
  obtain ⟨h2tgt, h2bak⟩ :=
    copy_over sp2 dest c2 c1 ((copy_chromedriver sp1 dest fs0).1)
      hsrc2 h1tgt
  exact ⟨⟨h1tgt, h1bak⟩, ⟨h2tgt, h2bak⟩,
    fun fs sp s old hs ht => ⟨(copy_over sp dest s old fs hs ht).2,
      (copy_over sp dest s old fs hs ht).1⟩⟩

theorem c1_backup_rotation_witness :
    (("one" : String) ≠ "two" ∧
      c1fs.files (sourceBinary "left") = some "one" ∧
      c1fs.files (targetBinary "inst") = none ∧
      c1fs.files (backupBinary "inst") = none ∧
      ((copy_chromedriver "left" "inst" c1fs).1).files
        (sourceBinary "right") = some "two") ∧
    ((copy_chromedriver "left" "inst" c1fs).1).files (targetBinary "inst") =
      some "one" ∧
    ((copy_chromedriver "left" "inst" c1fs).1).files (backupBinary "inst") =
      none ∧
    ((copy_chromedriver "right" "inst"
        ((copy_chromedriver "left" "inst" c1fs).1)).1).files
      (targetBinary "inst") = some "two" ∧
    ((copy_chromedriver "right" "inst"
        ((copy_chromedriver "left" "inst" c1fs).1)).1).files
      (backupBinary "inst") = some "one" := by
  have h := c1_backup_rotation "left" "right" "inst" "one" "two" c1fs
    (by decide) (by decide) (by decide) (by decide) (by decide)
  exact ⟨⟨by decide, by decide, by decide, by decide, by decide⟩,
    h.1.1, h.1.2, h.2.1.1, h.2.1.2⟩

/-- C9 (counterexample): the claim says every non-success HTTP status
makes the fetch fail with an HTTP error outcome and leave no partial
files.  But `raise_for_status` raises only for 4xx/5xx: a 301 response
(delivered, e.g., when a redirect carries no `Location` header) whose
body happens to be a well-formed archive is extracted and reported as a
success, writing files into the destination directory. -/
theorem c9_counterexample :
    ¬(200 ≤ (301 : Nat) ∧ (301 : Nat) < 300) ∧
    (download_chromedriver
        ⟨301, .archive [("chromedriver-win64/chromedriver.exe", "binary")]⟩
        "downloads" emptyFS).2 = .success "downloads" ∧
    ((download_chromedriver
        ⟨301, .archive [("chromedriver-win64/chromedriver.exe", "binary")]⟩
        "downloads" emptyFS).1).files
      (pathJoin "downloads" "chromedriver-win64/chromedriver.exe") =
      some "binary" :=
  ⟨by decide, rfl, by decide⟩

/-- C9 (amended): for every response whose status is in the 4xx/5xx
range — exactly the statuses for which `raise_for_status` raises —
`download_chromedriver` fails with the HTTP error outcome and leaves the
destination directory (indeed the whole filesystem) unchanged, since the
exception is raised before anything is written. -/
theorem c9_http_error_no_partial (resp : HttpResponse) (save_path : String)
    (fs : FS) (h4 : 400 ≤ resp.status) (h6 : resp.status < 600) :
    download_chromedriver resp save_path fs = (fs, .httpError resp.status) := by
  simp [download_chromedriver, raisesForStatus, h4, h6]

theorem c9_http_error_no_partial_witness :
    (400 ≤ (404 : Nat) ∧ (404 : Nat) < 600) ∧
    download_chromedriver ⟨404, .malformed⟩ "downloads" emptyFS =
      (emptyFS, .httpError 404) :=
  ⟨⟨by decide, by decide⟩,
    c9_http_error_no_partial ⟨404, .malformed⟩ "downloads" emptyFS
      (by decide) (by decide)⟩

/-- C5 (counterexample): `"1.0a1"` does not parse as a dotted-numeric
version, yet `check_version` classifies it against `"1.0"` as `outdated`
with `needs_update = true` — not as a parse error with `false` — because
`packaging.version.parse` accepts the full PEP 440 grammar beyond the
dotted-numeric fragment (`1.0a1 < 1.0`). -/
theorem c5_counterexample :
    dottedNumeric "1.0a1" = false ∧
    check_version (some "1.0a1") "1.0" = ⟨true, .outdated⟩ :=
  ⟨by decide, by decide⟩

/-- C5 (amended): for every pair of inputs where either side is rejected
by the implementation's version grammar — packaging's anchored PEP 440
pattern (optional `v` prefix, epoch, release, pre-, post- and
dev-release segments, local label, surrounding whitespace) — the
comparison yields `parse_error` with `needs_update = false`; the
`try`/`except` around the parse makes the comparison total. -/
theorem c5_unparseable_no_update (a b : String)
    (h : parseVersion a = none ∨ parseVersion b = none) :
    check_version (some a) b = ⟨false, .parse_error⟩ := by
  rcases h with h | h
  · simp [check_version, h]
  · cases ha : parseVersion a <;> simp [check_version, ha, h]

theorem c5_unparseable_no_update_witness :
    parseVersion "abc" = none ∧
    check_version (some "abc") "1.0" = ⟨false, .parse_error⟩ :=
  ⟨by decide, c5_unparseable_no_update "abc" "1.0" (Or.inl (by decide))⟩

theorem natFrom_cons (acc : Nat) (c : Char) (g : List Char) :
    natFrom acc (c :: g) = natFrom (digitStep acc c) g := rfl

theorem natFrom_nil (acc : Nat) : natFrom acc [] = acc := rfl

theorem relLoop_groups (n : Nat) : ∀ (cs : List Char) (acc : Nat),
    cs.length ≤ n →
    (splitDots cs).1.all Char.isDigit = true →
    (splitDots cs).2.all (fun g => !g.isEmpty && g.all Char.isDigit) = true →
    relLoop acc cs =
      (natFrom acc (splitDots cs).1 :: (splitDots cs).2.map natOfDigits,
        []) := by
  induction n with
  | zero =>
    intro cs acc hlen h1 h2
    cases cs with
    | nil => simp [relLoop, splitDots, natFrom]
    | cons c cs' => simp at hlen
  | succ n ih =>
    intro cs acc hlen h1 h2
    cases cs with
    | nil => simp [relLoop, splitDots, natFrom]
    | cons c cs' =>
      by_cases hc : c = '.'
      · subst hc
        simp only [splitDots, eq_self_iff_true, if_true] at h2
        rw [List.all_cons] at h2
        simp only [Bool.and_eq_true] at h2
        obtain ⟨hgood, hrest⟩ := h2
        obtain ⟨hne, hdig⟩ := hgood
        cases cs' with
        | nil => simp [splitDots] at hne
        | cons d cs'' =>
          by_cases hd : d = '.'
          · subst hd
            simp [splitDots] at hne
          · simp only [splitDots, if_neg hd] at hne hdig hrest ⊢
            rw [List.all_cons] at hdig
            simp only [Bool.and_eq_true] at hdig
            obtain ⟨hddig, hdig'⟩ := hdig
            have hlen' : cs''.length ≤ n := by
              simp at hlen; omega
            have hr := ih cs'' (digitStep 0 d) hlen' hdig' hrest
            have hdot : ('.' : Char).isDigit = false := by decide
            rw [relLoop.eq_def]
            simp only [hdot, Bool.false_eq_true, if_false,
              eq_self_iff_true, if_true, hddig]
            rw [hr]
            simp only [splitDots, eq_self_iff_true, if_true, if_neg hd,
              List.map_cons]
            rw [natFrom_nil]
            rfl
      · simp only [splitDots, if_neg hc] at h1 h2 ⊢
        rw [List.all_cons] at h1
        simp only [Bool.and_eq_true] at h1
        obtain ⟨hcd, h1'⟩ := h1
        have hlen' : cs'.length ≤ n := by
          simp at hlen; omega
        have hr := ih cs' (digitStep acc c) hlen' h1' h2
        rw [relLoop.eq_def]
        simp only [hcd, if_true]
        rw [hr, natFrom_cons]

theorem takeRelease_dotted (s : String) (h : dottedNumeric s = true) :
    takeRelease s.data = some (releaseOf s, []) := by
  unfold dottedNumeric dotGroups at h
  rw [List.all_cons] at h
  simp only [Bool.and_eq_true] at h
  obtain ⟨⟨hne, hdig⟩, hrest⟩ := h
  cases hsd : s.data with
  | nil => rw [hsd] at hne; simp [splitDots] at hne
  | cons c cs =>
    rw [hsd] at hne hdig hrest
    by_cases hc : c = '.'
    · subst hc; simp [splitDots] at hne
    · simp only [splitDots, if_neg hc] at hne hdig hrest
      rw [List.all_cons] at hdig
      simp only [Bool.and_eq_true] at hdig
      obtain ⟨hcd, hdig'⟩ := hdig
      rw [takeRelease]
      simp only [hcd, if_true]
      have hr := relLoop_groups cs.length cs (digitStep 0 c) le_rfl hdig' hrest
      rw [hr]
      unfold releaseOf dotGroups
      rw [hsd]
      simp only [splitDots, if_neg hc, List.map_cons]
      simp [natOfDigits, natFrom_cons]

theorem digit_not_ws {c : Char} (h : c.isDigit = true) :
    c.isWhitespace = false := by
  cases hw : c.isWhitespace
  · rfl
  · exfalso
    unfold Char.isWhitespace at hw
    simp only [Bool.or_eq_true, decide_eq_true_eq] at hw
    rcases hw with ((rfl | rfl) | rfl) | rfl <;> exact absurd h (by decide)

theorem mem_digit_dot : ∀ (cs : List Char),
    (((splitDots cs).1 :: (splitDots cs).2).all
      fun g => g.all Char.isDigit) = true →
    ∀ c ∈ cs, c.isDigit = true ∨ c = '.' := by
  intro cs
  induction cs with
  | nil => intro _ c hc; simp at hc
  | cons a cs ih =>
    intro h c hc
    by_cases ha : a = '.'
    · subst ha
      simp only [splitDots, eq_self_iff_true, if_true, List.all_cons,
        Bool.and_eq_true] at h
      rcases List.mem_cons.mp hc with rfl | hc'
      · exact Or.inr rfl
      · refine ih ?_ c hc'
        simp only [List.all_cons, Bool.and_eq_true]
        exact h.2
    · simp only [splitDots, if_neg ha, List.all_cons, Bool.and_eq_true] at h
      rcases List.mem_cons.mp hc with rfl | hc'
      · exact Or.inl h.1.1
      · refine ih ?_ c hc'
        simp only [List.all_cons, Bool.and_eq_true]
        exact ⟨h.1.2, h.2⟩

theorem dotted_chars {s : String} (h : dottedNumeric s = true) :
    ∀ c ∈ s.data, c.isDigit = true ∨ c = '.' := by
  apply mem_digit_dot
  unfold dottedNumeric dotGroups at h
  rw [List.all_eq_true] at h ⊢
  intro g hg
  exact ((Bool.and_eq_true _ _).mp (h g hg)).2

theorem dotted_head {s : String} (h : dottedNumeric s = true) :
    ∃ c rest, s.data = c :: rest ∧ c.isDigit = true := by
  unfold dottedNumeric dotGroups at h
  simp only [List.all_cons, Bool.and_eq_true] at h
  obtain ⟨⟨hne, hdig⟩, _⟩ := h
  cases hcs : s.data with
  | nil => rw [hcs] at hne; simp [splitDots] at hne
  | cons c rest =>
    rw [hcs] at hne hdig
    by_cases hc : c = '.'
    · subst hc; simp [splitDots] at hne
    · refine ⟨c, rest, rfl, ?_⟩
      simp only [splitDots, if_neg hc, List.all_cons,
        Bool.and_eq_true] at hdig
      exact hdig.1

theorem stripWsEnds_id (c : Char) (rest : List Char) (hc : c.isDigit = true)
    (hall : ∀ x ∈ c :: rest, x.isDigit = true ∨ x = '.') :
    stripWsEnds (c :: rest) = c :: rest := by
  unfold stripWsEnds
  have h1 : (c :: rest).dropWhile Char.isWhitespace = c :: rest := by
    simp [List.dropWhile_cons, digit_not_ws hc]
  rw [h1]
  cases hrev : (c :: rest).reverse with
  | nil => exact absurd hrev (by simp)
  | cons d ds =>
    have hd : d ∈ c :: rest := by
      rw [← List.mem_reverse, hrev]
      exact List.mem_cons_self d ds
    have hdw : d.isWhitespace = false := by
      rcases hall d hd with hdig | hdot
      · exact digit_not_ws hdig
      · rw [hdot]; decide
    simp only [List.dropWhile_cons, hdw, Bool.false_eq_true, if_false]
    rw [← hrev, List.reverse_reverse]

theorem dropV_digit (c : Char) (rest : List Char) (hc : c.isDigit = true) :
    dropV (c :: rest) = c :: rest := by
  show (if c = 'v' ∨ c = 'V' then rest else c :: rest) = c :: rest
  rw [if_neg]
  rintro (rfl | rfl) <;> exact absurd hc (by decide)

theorem parseEpoch_dotted {cs : List Char}
    (hall : ∀ x ∈ cs, x.isDigit = true ∨ x = '.') :
    parseEpoch cs = (0, cs) := by
  unfold parseEpoch
  cases hdw : cs.dropWhile Char.isDigit with
  | nil => simp [hdw]
  | cons e es =>
    have he : e ∈ cs :=
      (List.dropWhile_sublist _).subset (hdw ▸ List.mem_cons_self e es)
    have hnd : e.isDigit = false := by
      have h2 := List.head?_dropWhile_not Char.isDigit cs
      rw [hdw] at h2
      simpa using h2
    have hdot : e = '.' := by
      rcases hall e he with hdig | hdot
      · rw [hdig] at hnd; cases hnd
      · exact hdot
    subst hdot
    simp [hdw]

theorem parsePre_nil : parsePre [] = (none, []) := rfl

theorem parsePost_nil : parsePost [] = (none, []) := rfl

theorem parseDev_nil : parseDev [] = (none, []) := rfl

theorem parseLocal_nil : parseLocal [] = (none, []) := rfl

theorem parseVersion_dotted (s : String) (h : dottedNumeric s = true) :
    parseVersion s = some ⟨0, releaseOf s, none, none, none, none⟩ := by
  obtain ⟨c, rest, hcs, hcd⟩ := dotted_head h
  have hall : ∀ x ∈ s.data, x.isDigit = true ∨ x = '.' := dotted_chars h
  have h1 : stripWsEnds s.data = s.data := by
    rw [hcs] at hall ⊢
    exact stripWsEnds_id c rest hcd hall
  have h2 : dropV s.data = s.data := by
    rw [hcs]
    exact dropV_digit c rest hcd
  have h3 : parseEpoch s.data = (0, s.data) := parseEpoch_dotted hall
  simp only [parseVersion, h1, h2, h3, takeRelease_dotted s h,
    parsePre_nil, parsePost_nil, parseDev_nil, parseLocal_nil,
    List.isEmpty_nil, if_true]

/-! ## Release comparison: stripped-tuple versus zero-padded -/

theorem specPad_zero_right : ∀ (a b : List Nat),
    specPadCompare a (b ++ [0]) = specPadCompare a b := by
  intro a
  induction a with
  | nil =>
    intro b
    induction b with
    | nil =>
      have h0 : compare (0 : Nat) 0 = Ordering.eq := by decide
      simp only [List.nil_append, specPadCompare, h0]
    | cons x bs ih =>
      simp only [List.cons_append, specPadCompare]
      rw [ih]
  | cons y as ih =>
    intro b
    cases b with
    | nil => simp only [List.nil_append, specPadCompare]
    | cons x bs =>
      simp only [List.cons_append, specPadCompare]
      rw [ih]

theorem specPad_zero_left : ∀ (a b : List Nat),
    specPadCompare (a ++ [0]) b = specPadCompare a b := by
  intro a
  induction a with
  | nil =>
    intro b
    cases b with
    | nil =>
      have h0 : compare (0 : Nat) 0 = Ordering.eq := by decide
      simp only [List.nil_append, specPadCompare, h0]
    | cons x bs => simp only [List.nil_append, specPadCompare]
  | cons y as ih =>
    intro b
    cases b with
    | nil =>
      simp only [List.cons_append, specPadCompare]
      rw [ih]
    | cons x bs =>
      simp only [List.cons_append, specPadCompare]
      rw [ih]

theorem specPad_replicate_right (a : List Nat) : ∀ (k : Nat) (b : List Nat),
    specPadCompare a (b ++ List.replicate k 0) = specPadCompare a b := by
  intro k
  induction k with
  | zero => intro b; simp
  | succ k ih =>
    intro b
    rw [List.replicate_succ', ← List.append_assoc, specPad_zero_right, ih]

theorem specPad_replicate_left (b : List Nat) : ∀ (k : Nat) (a : List Nat),
    specPadCompare (a ++ List.replicate k 0) b = specPadCompare a b := by
  intro k
  induction k with
  | zero => intro a; simp
  | succ k ih =>
    intro a
    rw [List.replicate_succ', ← List.append_assoc, specPad_zero_left, ih]

theorem stripZeros_spec (l : List Nat) :
    l = stripZeros l ++
      List.replicate (l.reverse.takeWhile (fun x => x == 0)).length 0 := by
  conv_lhs =>
    rw [← List.reverse_reverse l,
      ← List.takeWhile_append_dropWhile (p := fun x => x == 0)
        (l := l.reverse)]
  rw [List.reverse_append]
  unfold stripZeros
  congr 1
  have hall : ∀ b ∈ l.reverse.takeWhile (fun x => x == 0), b = 0 := by
    intro b hb
    have hmem := List.mem_takeWhile_imp hb
    simpa using hmem
  have hrep := List.eq_replicate_length.mpr hall
  have h2 := congrArg List.reverse hrep
  rwa [List.reverse_replicate] at h2

theorem noTrailingZero_stripZeros (l : List Nat) :
    noTrailingZero (stripZeros l) := by
  unfold noTrailingZero stripZeros
  rw [List.getLast?_reverse]
  have h := List.head?_dropWhile_not (fun x => x == 0) l.reverse
  intro hc
  rw [hc] at h
  simp at h

theorem noTrailingZero_nil : noTrailingZero ([] : List Nat) := by
  simp [noTrailingZero]

theorem noTrailingZero_tail {x : Nat} {l : List Nat}
    (h : noTrailingZero (x :: l)) : noTrailingZero l := by
  cases l with
  | nil => simp [noTrailingZero]
  | cons y m =>
    unfold noTrailingZero at h ⊢
    rwa [List.getLast?_cons_cons] at h

theorem specPad_eq_lexNat (a : List Nat) : ∀ (b : List Nat),
    noTrailingZero a → noTrailingZero b →
    specPadCompare a b = lexNat a b := by
  induction a with
  | nil =>
    intro b
    induction b with
    | nil => intro _ _; simp [specPadCompare, lexNat]
    | cons x bs ih =>
      intro ha hb
      simp only [specPadCompare, lexNat]
      by_cases hx : x = 0
      · subst hx
        have h0 : compare (0 : Nat) 0 = Ordering.eq := by decide
        rw [h0]
        cases bs with
        | nil =>
          exfalso
          simp [noTrailingZero] at hb
        | cons y m =>
          have hb' : noTrailingZero (y :: m) := noTrailingZero_tail hb
          have := ih noTrailingZero_nil hb'
          simp only [this, lexNat]
      · have hlt : compare (0 : Nat) x = Ordering.lt :=
          Nat.compare_eq_lt.mpr (Nat.pos_of_ne_zero hx)
        rw [hlt]
  | cons y as ih =>
    intro b ha hb
    cases b with
    | nil =>
      simp only [specPadCompare, lexNat]
      by_cases hy : y = 0
      · subst hy
        have h0 : compare (0 : Nat) 0 = Ordering.eq := by decide
        rw [h0]
        cases as with
        | nil =>
          exfalso
          simp [noTrailingZero] at ha
        | cons z m =>
          have ha' : noTrailingZero (z :: m) := noTrailingZero_tail ha
          have := ih [] ha' noTrailingZero_nil
          simp only [this, lexNat]
      · have hgt : compare y (0 : Nat) = Ordering.gt :=
          Nat.compare_eq_gt.mpr (Nat.pos_of_ne_zero hy)
        rw [hgt]
    | cons x bs =>
      simp only [specPadCompare, lexNat]
      cases hc : compare y x with
      | eq => simp only [ih bs (noTrailingZero_tail ha) (noTrailingZero_tail hb)]
      | lt => rfl
      | gt => rfl

theorem cmpRelease_eq_specPadCompare (a b : List Nat) :
    cmpRelease a b = specPadCompare a b := by
  have h1 : specPadCompare a b = specPadCompare (stripZeros a) b := by
    conv_lhs => rw [stripZeros_spec a]
    rw [specPad_replicate_left]
  have h2 : specPadCompare (stripZeros a) b =
      specPadCompare (stripZeros a) (stripZeros b) := by
    conv_lhs => rw [stripZeros_spec b]
    rw [specPad_replicate_right]
  rw [h1, h2,
    specPad_eq_lexNat _ _ (noTrailingZero_stripZeros a)
      (noTrailingZero_stripZeros b)]
  rfl

/-! ## Antisymmetry of the comparison -/

theorem lexNat_swap (a : List Nat) : ∀ (b : List Nat),
    lexNat b a = (lexNat a b).swap := by
  induction a with
  | nil =>
    intro b
    cases b <;> simp [lexNat, Ordering.swap]
  | cons y as ih =>
    intro b
    cases b with
    | nil => simp [lexNat, Ordering.swap]
    | cons x bs =>
      simp only [lexNat]
      rw [← Nat.compare_swap]
      cases hc : compare y x <;> simp [Ordering.swap, ih bs]

theorem cmpRelease_swap (a b : List Nat) :
    cmpRelease b a = (cmpRelease a b).swap :=
  lexNat_swap (stripZeros a) (stripZeros b)

theorem compareVersion_plain (a b : List Nat) :
    compareVersion ⟨0, a, none, none, none, none⟩
      ⟨0, b, none, none, none, none⟩ = cmpRelease a b := by
  have h0 : compare (0 : Nat) 0 = Ordering.eq := by decide
  simp only [compareVersion, preKeyOf, h0]
  cases hc : cmpRelease a b <;> simp [cmpPreKey, cmpPost, cmpDev, cmpLocal]

/-- C4: on dotted-numeric version strings the comparison classifies by
comparing the dot-separated components as integers (missing trailing
components reading as zero). -/
theorem c4_numeric_componentwise (a b : String)
    (ha : dottedNumeric a = true) (hb : dottedNumeric b = true) :
    check_version (some a) b =
      match specPadCompare (releaseOf a) (releaseOf b) with
      | .eq => ⟨false, .latest⟩
      | .gt => ⟨false, .newer⟩
      | .lt => ⟨true, .outdated⟩ := by
  simp only [check_version, parseVersion_dotted a ha,
    parseVersion_dotted b hb, compareVersion_plain]
  rw [← cmpRelease_eq_specPadCompare]

theorem c4_numeric_componentwise_witness :
    dottedNumeric "9.0.0.0" = true ∧ dottedNumeric "10.0.0.0" = true ∧
    check_version (some "9.0.0.0") "10.0.0.0" = ⟨true, .outdated⟩ := by
  refine ⟨by decide, by decide, ?_⟩
  have h := c4_numeric_componentwise "9.0.0.0" "10.0.0.0"
    (by decide) (by decide)
  rw [h, ← cmpRelease_eq_specPadCompare]
  decide

/-- C6: on valid dotted-numeric pairs the classification is
antisymmetric. -/
theorem c6_classification_antisymmetric (a b : String)
    (ha : dottedNumeric a = true) (hb : dottedNumeric b = true) :
    (check_version (some b) a).status =
      statusInv ((check_version (some a) b).status) := by
  simp only [check_version, parseVersion_dotted a ha,
    parseVersion_dotted b hb, compareVersion_plain,
    cmpRelease_swap (releaseOf a) (releaseOf b)]
  cases hc : cmpRelease (releaseOf a) (releaseOf b) <;>
    simp [Ordering.swap, statusInv]

theorem c6_classification_antisymmetric_witness :
    dottedNumeric "130.0.6723.91" = true ∧
    dottedNumeric "131.0.6778.85" = true ∧
    (check_version (some "131.0.6778.85") "130.0.6723.91").status =
      statusInv ((check_version (some "130.0.6723.91") "131.0.6778.85").status) :=
  ⟨by decide, by decide,
    c6_classification_antisymmetric "130.0.6723.91" "131.0.6778.85"
      (by decide) (by decide)⟩

/-! ## Catalog parser lemmas -/

theorem channelInfoOf_some {doc : Node} {ch : String} {info : ChannelInfo}
    (h : channelInfoOf doc ch = .ok (some info)) :
    versionFromCode doc ch info := by
  unfold channelInfoOf at h
  cases hsec : findNode (fun n => isNamed "section" n && hasId ch n) doc with
  | none => simp [hsec] at h
  | some sec =>
    simp only [hsec] at h
    cases hp : findNode (isNamed "p") sec with
    | none => simp [hp] at h
    | some par =>
      simp only [hp] at h
      cases hcode : findNode (isNamed "code") par with
      | none => simp [hcode] at h
      | some code =>
        simp only [hcode, Except.ok.injEq, Option.some.injEq] at h
        exact ⟨sec, par, code, hsec, hp, hcode, by rw [← h]⟩

theorem catFold_not_mem (doc : Node) : ∀ (chs : List String)
    (acc res : List (String × ChannelInfo)) (ch : String),
    catFold doc chs acc = .ok res → ch ∉ chs →
    getKey res ch = getKey acc ch := by
  intro chs
  induction chs with
  | nil =>
    intro acc res ch h hmem
    simp only [catFold, Except.ok.injEq] at h
    rw [h]
  | cons c rest ih =>
    intro acc res ch h hmem
    simp only [List.mem_cons, not_or] at hmem
    obtain ⟨hne, hmem'⟩ := hmem
    simp only [catFold] at h
    cases hc : channelInfoOf doc c with
    | error e => rw [hc] at h; simp at h
    | ok o =>
      rw [hc] at h
      cases o with
      | none => exact ih acc res ch h hmem'
      | some info =>
        rw [ih (setKey acc c info) res ch h hmem',
          getKey_setKey_ne _ _ _ _ hne]

theorem catFold_mem_some (doc : Node) : ∀ (chs : List String)
    (acc res : List (String × ChannelInfo)) (ch : String)
    (i : ChannelInfo),
    catFold doc chs acc = .ok res → chs.Nodup → ch ∈ chs →
    channelInfoOf doc ch = .ok (some i) →
    getKey res ch = some i := by
  intro chs
  induction chs with
  | nil => intro acc res ch i h hnd hmem; simp at hmem
  | cons c rest ih =>
    intro acc res ch i h hnd hmem hch
    rw [List.nodup_cons] at hnd
    simp only [catFold] at h
    rcases List.mem_cons.mp hmem with rfl | hmem'
    · rw [hch] at h
      rw [catFold_not_mem doc rest (setKey acc ch i) res ch h hnd.1,
        getKey_setKey_self]
    · cases hc : channelInfoOf doc c with
      | error e => rw [hc] at h; simp at h
      | ok o =>
        rw [hc] at h
        cases o with
        | none => exact ih acc res ch i h hnd.2 hmem' hch
        | some j => exact ih (setKey acc c j) res ch i h hnd.2 hmem' hch

theorem catFold_mem_none (doc : Node) : ∀ (chs : List String)
    (acc res : List (String × ChannelInfo)) (ch : String),
    catFold doc chs acc = .ok res → chs.Nodup → ch ∈ chs →
    channelInfoOf doc ch = .ok none →
    getKey res ch = getKey acc ch := by
  intro chs
  induction chs with
  | nil => intro acc res ch h hnd hmem; simp at hmem
  | cons c rest ih =>
    intro acc res ch h hnd hmem hch
    rw [List.nodup_cons] at hnd
    simp only [catFold] at h
    rcases List.mem_cons.mp hmem with rfl | hmem'
    · rw [hch] at h
      exact catFold_not_mem doc rest acc res ch h hnd.1
    · cases hc : channelInfoOf doc c with
      | error e => rw [hc] at h; simp at h
      | ok o =>
        rw [hc] at h
        cases o with
        | none => exact ih acc res ch h hnd.2 hmem' hch
        | some j =>
          by_cases hcc : ch = c
          · subst hcc
            rw [hc] at hch
            simp at hch
          · rw [ih (setKey acc c j) res ch h hnd.2 hmem' hch,
              getKey_setKey_ne _ _ _ _ hcc]

theorem catFold_ok (doc : Node) : ∀ (chs : List String)
    (acc : List (String × ChannelInfo)),
    (∀ c ∈ chs, channelInfoOf doc c ≠ .error ()) →
    ∃ res, catFold doc chs acc = .ok res := by
  intro chs
  induction chs with
  | nil => intro acc _; exact ⟨acc, rfl⟩
  | cons c rest ih =>
    intro acc hok
    simp only [catFold]
    cases hc : channelInfoOf doc c with
    | error e =>
      exact absurd hc (by cases e; exact hok c (List.mem_cons_self c rest))
    | ok o =>
      cases o with
      | none => exact ih acc fun d hd => hok d (List.mem_cons_of_mem c hd)
      | some info =>
        exact ih (setKey acc c info) fun d hd =>
          hok d (List.mem_cons_of_mem c hd)

theorem catFold_good (doc : Node) : ∀ (chs : List String)
    (acc res : List (String × ChannelInfo)),
    catFold doc chs acc = .ok res →
    (∀ ch info, getKey acc ch = some info → versionFromCode doc ch info) →
    ∀ ch info, getKey res ch = some info → versionFromCode doc ch info := by
  intro chs
  induction chs with
  | nil =>
    intro acc res h hacc ch info hg
    simp only [catFold, Except.ok.injEq] at h
    exact hacc ch info (h ▸ hg)
  | cons c rest ih =>
    intro acc res h hacc ch info hg
    simp only [catFold] at h
    cases hc : channelInfoOf doc c with
    | error e => rw [hc] at h; simp at h
    | ok o =>
      rw [hc] at h
      cases o with
      | none => exact ih acc res h hacc ch info hg
      | some j =>
        refine ih (setKey acc c j) res h ?_ ch info hg
        intro ch' info' h'
        rcases getKey_setKey_cases h' with ⟨rfl, rfl⟩ | h''
        · exact channelInfoOf_some hc
        · exact hacc ch' info' h''

/-- C2 (counterexample): the claim says every channel present in the
Catalog has a non-empty version string.  But `if version_code:` only
distinguishes a found tag from `None` — a found `bs4.Tag` is
unconditionally truthy — so a `stable` section whose lead paragraph
holds a childless `<code></code>` element is accepted, producing a
channel entry whose version is the empty string. -/
theorem c2_empty_version_counterexample :
    getKey (get_chrome_for_testing_info c2doc) "stable" =
      some { version := "", download_urls := [] } := rfl

/-- C2 (amended): every channel present in the Catalog carries as its
version the text of the first `code` element of the first `p` descendant
of the channel's section — a string that may be empty, as the
counterexample shows, since only the element's presence is checked; its
downloads mapping may be empty. -/
theorem c2_version_from_code_element (doc : Node) (ch : String)
    (info : ChannelInfo)
    (h : getKey (get_chrome_for_testing_info doc) ch = some info) :
    versionFromCode doc ch info := by
  unfold get_chrome_for_testing_info at h
  cases hp : parseCatalog doc with
  | error e => rw [hp] at h; simp [getKey] at h
  | ok cat =>
    rw [hp] at h
    unfold parseCatalog at hp
    refine catFold_good doc channelNames [] cat hp ?_ ch info h
    intro ch0 i0 h0
    simp [getKey] at h0

theorem c2_version_from_code_element_witness :
    getKey (get_chrome_for_testing_info c2doc) "stable" =
      some { version := "", download_urls := [] } ∧
    versionFromCode c2doc "stable" { version := "", download_urls := [] } :=
  ⟨rfl, c2_version_from_code_element c2doc "stable"
    { version := "", download_urls := [] } rfl⟩

/-- C3 (counterexample): the claim promises that when one channel's
version extraction fails, the other channels are still parsed normally.
But when the `stable` section has no `<p>` descendant at all,
`channel_section.find('p')` is `None`, `.find('code')` raises
`AttributeError`, and the catch-all `except` returns the empty dict: the
well-formed `beta` section — which on its own parses to version
`"1.2.3"` — is dropped together with everything else. -/
theorem c3_section_without_paragraph_counterexample :
    channelInfoOf c3noPdoc "stable" = .error () ∧
    channelInfoOf c3noPdoc "beta" =
      .ok (some { version := "1.2.3", download_urls := [] }) ∧
    get_chrome_for_testing_info c3noPdoc = [] :=
  ⟨rfl, rfl, rfl⟩

/-- C3 (amended): the parser always returns a catalog rather than an
error (the catch-all `except` yields the empty dict even when a section
raises); and provided no channel's processing raises — i.e. every
channel section that exists has a `<p>` descendant — a channel whose
lead paragraph holds no `code` element is omitted from the returned
Catalog while every other channel is parsed exactly as it would be on
its own.  Without that proviso the isolation fails, as the
counterexample shows. -/
theorem c3_unversioned_channel_omitted (doc sec par : Node) (ch : String)
    (hsec : findNode (fun n => isNamed "section" n && hasId ch n) doc =
      some sec)
    (hp : findNode (isNamed "p") sec = some par)
    (hcode : findNode (isNamed "code") par = none)
    (hok : ∀ c ∈ channelNames, channelInfoOf doc c ≠ .error ()) :
    (∃ cat, parseCatalog doc = .ok cat) ∧
    getKey (get_chrome_for_testing_info doc) ch = none ∧
    ∀ c r, c ∈ channelNames → c ≠ ch → channelInfoOf doc c = .ok r →
      getKey (get_chrome_for_testing_info doc) c = r := by
  have hnd : channelNames.Nodup := by decide
  have hch_none : channelInfoOf doc ch = .ok none := by
    unfold channelInfoOf
    simp only [hsec, hp, hcode]
  obtain ⟨cat, hcat⟩ := catFold_ok doc channelNames [] hok
  have hget : get_chrome_for_testing_info doc = cat := by
    unfold get_chrome_for_testing_info parseCatalog
    rw [hcat]
  refine ⟨⟨cat, by unfold parseCatalog; exact hcat⟩, ?_, ?_⟩
  · rw [hget]
    by_cases hmem : ch ∈ channelNames
    · rw [catFold_mem_none doc channelNames [] cat ch hcat hnd hmem hch_none]
      rfl
    · rw [catFold_not_mem doc channelNames [] cat ch hcat hmem]
      rfl
  · intro c r hc hne hr
    rw [hget]
    cases r with
    | some i => exact catFold_mem_some doc channelNames [] cat c i hcat hnd hc hr
    | none =>
      rw [catFold_mem_none doc channelNames [] cat c hcat hnd hc hr]
      rfl

theorem c3_unversioned_channel_omitted_witness :
    (∃ cat, parseCatalog c3doc = .ok cat) ∧
    getKey (get_chrome_for_testing_info c3doc) "stable" = none ∧
    ∀ c r, c ∈ channelNames → c ≠ "stable" → channelInfoOf c3doc c = .ok r →
      getKey (get_chrome_for_testing_info c3doc) c = r :=
  c3_unversioned_channel_omitted c3doc c3sec c3par "stable" rfl rfl rfl
    (by intro c hc; fin_cases hc <;> exact fun hcontra => Except.noConfusion hcontra)

/-! ## Table row lemmas -/

theorem rowEntry_eq_none {bad : Node}
    (h : (cellsOf bad).length < 4 ∨
      ∃ i, i < 3 ∧ ∃ c, (cellsOf bad).get? i = some c ∧
        findNode (isNamed "code") c = none) :
    rowEntry bad = none := by
  unfold rowEntry
  rcases hc : cellsOf bad with _ | ⟨c0, _ | ⟨c1, _ | ⟨c2, _ | ⟨c3, t⟩⟩⟩⟩
  · rfl
  · rfl
  · rfl
  · rfl
  · rcases h with hlen | ⟨i, hi, c, hget, hcode⟩
    · rw [hc] at hlen
      simp at hlen
      omega
    · rw [hc] at hget
      match i, hi with
      | 0, _ =>
        simp only [List.get?] at hget
        obtain rfl : c0 = c := by injection hget
        simp [cellCode, hcode]
      | 1, _ =>
        simp only [List.get?] at hget
        obtain rfl : c1 = c := by injection hget
        simp [cellCode, hcode]
      | 2, _ =>
        simp only [List.get?] at hget
        obtain rfl : c2 = c := by injection hget
        simp [cellCode, hcode]

mutual

theorem findAllNode_filter (p q : Node → Bool) (n : Node) :
    findAllNode (fun m => p m && q m) n = (findAllNode p n).filter q := by
  cases n with
  | text s => rfl
  | elem t a cs =>
    show findAllList (fun m => p m && q m) cs = (findAllList p cs).filter q
    exact findAllList_filter p q cs

theorem findAllList_filter (p q : Node → Bool) (l : List Node) :
    findAllList (fun m => p m && q m) l = (findAllList p l).filter q := by
  cases l with
  | nil => rfl
  | cons n rest =>
    show (if p n && q n then [n] else []) ++
        findAllNode (fun m => p m && q m) n ++
        findAllList (fun m => p m && q m) rest =
      ((if p n then [n] else []) ++ findAllNode p n ++
        findAllList p rest).filter q
    rw [findAllNode_filter p q n, findAllList_filter p q rest,
      List.filter_append, List.filter_append]
    congr 1
    congr 1
    cases hp : p n <;> cases hq : q n <;> simp [List.filter_cons, hq]

end

/-- C8: in a channel section's download table only the rows carrying the
`status-ok` class are folded into the downloads dict (second conjunct);
and a row with fewer than four cells, or lacking the inline `code`
sub-element in one of the three designated columns, contributes nothing:
the downloads are exactly those built from the remaining rows (first
conjunct). -/
theorem c8_row_skipping (sec table bad : Node) (rows1 rows2 : List Node)
    (htable : findNode (isNamed "table") sec = some table)
    (hrows : findAllNode okRow table = rows1 ++ bad :: rows2)
    (hskip : (cellsOf bad).length < 4 ∨
      ∃ i, i < 3 ∧ ∃ c, (cellsOf bad).get? i = some c ∧
        findNode (isNamed "code") c = none) :
    downloadsOf sec = (rows1 ++ rows2).foldl processRow [] ∧
    findAllNode okRow table =
      (findAllNode (isNamed "tr") table).filter (hasClass "status-ok") := by
  constructor
  · unfold downloadsOf
    simp only [htable]
    rw [hrows, List.foldl_append, List.foldl_append, List.foldl_cons]
    rw [show processRow (rows1.foldl processRow []) bad =
        rows1.foldl processRow [] from by
      unfold processRow
      rw [rowEntry_eq_none hskip]]
  · exact findAllNode_filter (isNamed "tr") (hasClass "status-ok") table

theorem c8_row_skipping_witness :
    downloadsOf c8sec = ([c8goodRow] ++ []).foldl processRow [] ∧
    findAllNode okRow c8table =
      (findAllNode (isNamed "tr") c8table).filter (hasClass "status-ok") :=
  c8_row_skipping c8sec c8table c8badRow [c8goodRow] [] rfl rfl
    (Or.inr ⟨2, by omega, .elem "td" [] [], rfl, rfl⟩)

end ChromedriverChecker
